import Mathlib

/-!
Shallow embedding of the doxygenTools repository (TheHeadlessSourceMan/doxygenTools).

The Python sources embedded here:
  callGraph.py          — CallGraphNode (parents / children / roots / root / isRoot)
  callLocation.py       — CallLocation
  doxygenFunctionInfo.py — DoxygenFunctionInfo (bestFile, xml, filename,
                           thisCallsFunctions, functionsCallThis)
  doxygenFileInfo.py    — DoxygenFileInfo (xml property with FileNotFoundError fallback)
  doxygenInfo.py        — DoxygenInfo (calculateFunctionBackreferences, _reparseXmlIndex)
  doxyFile.py           — DoxyfileSetting.value setter, DoxyFile.markDirty/save
  gitignore.py          — Gitignore (load / addRule / removeRule / save)

Machine-level conventions of the embedding:
  * Python exceptions are modelled with `Except String`; the string carries the
    exception class so distinct raise sites stay distinct.
  * Python generators are modelled as functions producing the full list of
    yielded values (or an error, when an exception escapes mid-iteration).
  * Python dicts are modelled as association lists in insertion order; dict
    assignment overwrites in place, `.get` is association-list lookup.
  * Python object identity, where it matters (the function-object store built
    by `_reparseXmlIndex`), is modelled with an explicit store of objects
    addressed by allocation index.
  * `print` calls are no-ops for state, but every expression a `print`
    argument evaluates is still evaluated (this matters: one `print` in
    `DoxygenFunctionInfo.xml` evaluates `self.bestFile.name`).
-/

/-! ## XML model (xml.etree.ElementTree as used by the sources) -/

/-- An XML element: tag, attribute dict, child elements
(`xml.etree.ElementTree.Element` as the sources use it). -/
inductive XmlElem where
  | elem (tag : String) (attribs : List (String × String)) (children : List XmlElem)
deriving Inhabited

/-- The element's tag. -/
def XmlElem.tag : XmlElem → String
  | .elem t _ _ => t

/-- The element's attribute dict. -/
def XmlElem.attribs : XmlElem → List (String × String)
  | .elem _ a _ => a

/-- The element's direct children. -/
def XmlElem.childElems : XmlElem → List XmlElem
  | .elem _ _ cs => cs

/-- `element.attrib.get(key)`: lookup in the attribute dict. -/
def XmlElem.attr : XmlElem → String → Option String
  | .elem _ a _, k => go a k
where go : List (String × String) → String → Option String
  | [], _ => none
  | (k', v) :: rest, k => if k' = k then some v else go rest k

mutual
/-- All strict descendants of an element, in document order
(what `findall(".//*")` iterates). -/
def XmlElem.descendants : XmlElem → List XmlElem
  | .elem _ _ cs => XmlElem.descendantsList cs
/-- Descendant collection over a child list: each child followed by its own
descendants. -/
def XmlElem.descendantsList : List XmlElem → List XmlElem
  | [] => []
  | c :: rest => c :: (XmlElem.descendants c ++ XmlElem.descendantsList rest)
end

/-- `element.findall(tag)`: the direct children with the given tag. -/
def XmlElem.childrenWithTag (e : XmlElem) (t : String) : List XmlElem :=
  e.childElems.filter (fun c => c.tag = t)

/-- `element.find(tag)`: the first direct child with the given tag, if any. -/
def XmlElem.findChild (e : XmlElem) (t : String) : Option XmlElem :=
  e.childElems.find? (fun c => c.tag = t)

/-- `element.findall(".//*[@id='v']")`: every strict descendant whose `id`
attribute equals `v`. -/
def XmlElem.descendantsWithId (e : XmlElem) (v : String) : List XmlElem :=
  e.descendants.filter (fun d => d.attr "id" = some v)

/-! ## Registry data model

`DoxygenFileInfo` / `DoxygenFunctionInfo` / `DoxygenInfo` as they stand after a
successful index parse.  `FileData.doc` is the parsed per-file XML document,
i.e. the populated `DoxygenFileInfo._xml` cache (the loading behaviour of the
`xml` property itself, with its `FileNotFoundError` fallback, is embedded
separately as `DoxygenFileInfo.xmlGet`). -/

/-- A `DoxygenFileInfo`: `name` (the source file name recorded in the index)
and the parsed per-file XML document. -/
structure FileData where
  name : String
  doc : XmlElem
deriving Inhabited

/-- A `DoxygenFunctionInfo`: `name`, `refid`, and `files.values()` in dict
insertion order.  (`__eq__`/`__hash__` of the Python class compare by `refid`,
so `refid` is the object's identity in sets and equality checks.) -/
structure FunctionData where
  name : String
  refid : String
  files : List FileData
deriving Inhabited

/-- A `CallLocation`: the called/calling function and a location string. -/
structure CallLocation where
  fn : FunctionData
  location : String
deriving Inhabited

/-- A `DoxygenInfo` registry after parsing: `functions.values()` in insertion
order, and the `references` dict (refid → function object). -/
structure Registry where
  functions : List FunctionData
  references : List (String × FunctionData)

/-- `self.root.references.get(refid)`: dict lookup in the registry's
reference-ID map. -/
def Registry.refsLookup (reg : Registry) (refid : String) : Option FunctionData :=
  go reg.references refid
where go : List (String × FunctionData) → String → Option FunctionData
  | [], _ => none
  | (k, fn) :: rest, r => if k = r then some fn else go rest r

/-! ## DoxygenFunctionInfo.bestFile

```python
if not self.files: ...construct a synthetic FileInfo...
bestFile=None
for f in self.files.values():
    if bestFile is None or bestFile.extension=='.h':
        bestFile=f
return bestFile
```
`DoxygenFileInfo` defines no `extension` attribute anywhere in the repository
(its attributes are `root`, `name`, `functions`, `_xml`, `xmlFilename`), so
evaluating `bestFile.extension` raises `AttributeError`. -/

/-- Attribute access `fileInfo.extension`.  The class defines no such
attribute, so this access always raises `AttributeError`. -/
def FileData.extensionAttr (_ : FileData) : Except String String :=
  .error "AttributeError: DoxygenFileInfo object has no attribute extension"

/-- The `for f in self.files.values()` loop of `bestFile`, carrying the
`bestFile` loop variable. -/
def bestFileLoop : Option FileData → List FileData → Except String (Option FileData)
  | best, [] => .ok best
  | none, f :: rest => bestFileLoop (some f) rest
  | some b, f :: rest =>
    match b.extensionAttr with
    | .error e => .error e
    | .ok ext =>
      if ext = ".h" then bestFileLoop (some f) rest else bestFileLoop (some b) rest

/-- `DoxygenFunctionInfo.bestFile` on `files.values()`.  For empty `files` the
source constructs and returns a synthetic `DoxygenFileInfo` built from
`self.refid` and the doxygen output directory; the claims under study only
concern functions recorded in at least one file, so that branch is left as
`.ok none` here. -/
def bestFile (files : List FileData) : Except String (Option FileData) :=
  match files with
  | [] => .ok none
  | fs => bestFileLoop none fs

/-- `self.bestFile.name`, as evaluated by the `print` inside
`DoxygenFunctionInfo.xml` when a refid is missing from a file. -/
def bestFileName (files : List FileData) : Except String String :=
  match bestFile files with
  | .error e => .error e
  | .ok (some f) => .ok f.name
  | .ok none => .ok ""

/-! ## DoxygenFunctionInfo.xml and .filename -/

/-- `DoxygenFunctionInfo.xml`: for each file, `findall(".//*[@id=refid]")`;
matches are accumulated, and when a file has none the source prints a
diagnostic whose f-string evaluates `self.bestFile.name` (which can raise). -/
def fnXml (fn : FunctionData) : Except String (List XmlElem) :=
  go fn.files []
where go : List FileData → List XmlElem → Except String (List XmlElem)
  | [], acc => .ok acc
  | f :: rest, acc =>
    match f.doc.descendantsWithId fn.refid with
    | [] =>
      match bestFileName fn.files with
      | .error e => .error e
      | .ok _ => go rest acc
    | tags => go rest (acc ++ tags)

/-- `getDefinitionLocation(False,False,False)` over the elements of
`self.xml`:
```python
for element in self.xml:
    loc=element.find('location')
    filename=loc.attrib.get('bodyfile',loc.attrib['file'])
return filename
```
With `includeRow=False` only the filename is taken; the loop leaves the last
element's value.  A missing `location` child raises `AttributeError`
(`None.attrib`), a missing `file` attribute raises `KeyError`, and an empty
element list leaves `filename` unbound (`UnboundLocalError` at `return`). -/
def getDefinitionLocationNoRow (elems : List XmlElem) : Except String String :=
  go elems none
where go : List XmlElem → Option String → Except String String
  | [], none => .error "UnboundLocalError: filename"
  | [], some f => .ok f
  | e :: rest, acc =>
    match e.findChild "location" with
    | none => .error "AttributeError: NoneType has no attribute attrib"
    | some loc =>
      match loc.attr "bodyfile" with
      | some f => go rest (some f)
      | none =>
        match loc.attr "file" with
        | some f => go rest (some f)
        | none =>
          match acc with
          | _ => .error "KeyError: file"

/-- `DoxygenFunctionInfo.filename`: `Path(self.getDefinitionLocation(False,False,False))`. -/
def filenameOf (fn : FunctionData) : Except String String :=
  match fnXml fn with
  | .error e => .error e
  | .ok elems => getDefinitionLocationNoRow elems

/-! ## DoxygenFunctionInfo.thisCallsFunctions

```python
if ignore is None:
    ignore=set((self,))
for element in self.xml:
    for ref in element.findall('references'):
        fn=self.root.references.get(ref.attrib['refid'])
        if fn is not None and isinstance(fn,DoxygenFunctionInfo) and fn not in ignore:
            ignore.add(fn)
            row=ref.attrib.get('startline')
            if not row:
                yield CallLocation(fn,self.filename)
            else:
                yield CallLocation(fn,f'{self.filename}:{row}')
```
The ignore set holds `DoxygenFunctionInfo` objects whose hash and equality are
their `refid`, so it is modelled as a list of refids.  `self.filename` is a
property and is (re)evaluated at each yield; it is passed here unevaluated as
`fnameE` and forced exactly at the yield points.  Every value in the
registry's `references` dict is a `DoxygenFunctionInfo`, so the `isinstance`
test is always true. -/

/-- The inner `for ref in element.findall('references')` loop.  Returns the
yielded call locations and the final ignore set. -/
def thisCallsRefs (reg : Registry) (fnameE : Except String String) :
    List XmlElem → List String → Except String (List CallLocation × List String)
  | [], ign => .ok ([], ign)
  | ref :: rest, ign =>
    match ref.attr "refid" with
    | none => .error "KeyError: refid"
    | some rid =>
      match reg.refsLookup rid with
      | none => thisCallsRefs reg fnameE rest ign
      | some fn2 =>
        if fn2.refid ∈ ign then thisCallsRefs reg fnameE rest ign
        else
          match fnameE with
          | .error e => .error e
          | .ok fname =>
            let loc :=
              match ref.attr "startline" with
              | none => fname
              | some row => if row = "" then fname else fname ++ ":" ++ row
            match thisCallsRefs reg fnameE rest (fn2.refid :: ign) with
            | .error e => .error e
            | .ok (out, ign') => .ok (⟨fn2, loc⟩ :: out, ign')

/-- The outer `for element in self.xml` loop. -/
def thisCallsElems (reg : Registry) (fnameE : Except String String) :
    List XmlElem → List String → Except String (List CallLocation × List String)
  | [], ign => .ok ([], ign)
  | e :: rest, ign =>
    match thisCallsRefs reg fnameE (e.childrenWithTag "references") ign with
    | .error er => .error er
    | .ok (out1, ign1) =>
      match thisCallsElems reg fnameE rest ign1 with
      | .error er => .error er
      | .ok (out2, ign2) => .ok (out1 ++ out2, ign2)

/-- `DoxygenFunctionInfo.thisCallsFunctions(ignore)`: the full list a single
traversal of the generator yields. -/
def thisCallsFunctions (reg : Registry) (fn : FunctionData)
    (ignore0 : Option (List String)) : Except String (List CallLocation) :=
  let ign := match ignore0 with | none => [fn.refid] | some l => l
  match fnXml fn with
  | .error e => .error e
  | .ok elems =>
    match thisCallsElems reg (filenameOf fn) elems ign with
    | .error e => .error e
    | .ok (out, _) => .ok out

/-! ## DoxygenInfo.calculateFunctionBackreferences

```python
for fn in self.functions.values():
    for fnCall in fn.thisCallsFunctions():
        fnCall.fn._parentReferences.append(CallLocation(fn,fnCall.location))
```
The per-object `_parentReferences` lists (empty after a fresh parse) are
modelled as one association list keyed by the owning object's refid. -/

/-- The `_parentReferences` lists of all function objects, keyed by refid. -/
def Backrefs := List (String × List CallLocation)

/-- Read one object's `_parentReferences` list (empty if never appended to). -/
def backrefsGet : Backrefs → String → List CallLocation
  | [], _ => []
  | (k, l) :: rest, r => if k = r then l else backrefsGet rest r

/-- `fnCall.fn._parentReferences.append(c)`: append to the list owned by
refid `r`. -/
def addBackref : Backrefs → String → CallLocation → Backrefs
  | [], r, c => [(r, [c])]
  | (k, l) :: rest, r, c =>
    if k = r then (k, l ++ [c]) :: rest else (k, l) :: addBackref rest r c

/-- The inner `for fnCall in fn.thisCallsFunctions()` loop of
`calculateFunctionBackreferences`, for caller `fn`. -/
def appendCalls (fn : FunctionData) : List CallLocation → Backrefs → Backrefs
  | [], m => m
  | c :: rest, m => appendCalls fn rest (addBackref m c.fn.refid ⟨fn, c.location⟩)

/-- The outer `for fn in self.functions.values()` loop. -/
def calcBackrefsAux (reg : Registry) : List FunctionData → Backrefs → Except String Backrefs
  | [], m => .ok m
  | fn :: rest, m =>
    match thisCallsFunctions reg fn none with
    | .error e => .error e
    | .ok calls => calcBackrefsAux reg rest (appendCalls fn calls m)

/-- `DoxygenInfo.calculateFunctionBackreferences()` run on a freshly parsed
registry (all `_parentReferences` lists empty, flag not yet set). -/
def calcBackrefs (reg : Registry) : Except String Backrefs :=
  calcBackrefsAux reg reg.functions []

/-! ## callGraph.py: CallGraphNode -/

/-- A `CallGraphNode`: a function plus the call location it was reached by. -/
structure CallGraphNode where
  fn : FunctionData
  callLocation : Option CallLocation
deriving Inhabited

/-- The parent nodes of a node, given the computed backreference lists:
`for call in self.fn.functionsCallThis(): yield CallGraphNode(call.fn,call)`
where `functionsCallThis` returns `self._parentReferences`. -/
def parentNodes (m : Backrefs) (node : CallGraphNode) : List CallGraphNode :=
  (backrefsGet m node.fn.refid).map (fun c => ⟨c.fn, some c⟩)

/-- `CallGraphNode.parents`: `functionsCallThis` first runs
`calculateFunctionBackreferences` on the registry, then iterates the
`_parentReferences` list. -/
def CallGraphNode.parents (reg : Registry) (node : CallGraphNode) :
    Except String (List CallGraphNode) :=
  match calcBackrefs reg with
  | .error e => .error e
  | .ok m => .ok (parentNodes m node)

/-- `CallGraphNode.children`:
`for call in self.fn.thisCallsFunctions(): yield CallGraphNode(call.fn,call)`. -/
def CallGraphNode.children (reg : Registry) (node : CallGraphNode) :
    Except String (List CallGraphNode) :=
  match thisCallsFunctions reg node.fn none with
  | .error e => .error e
  | .ok calls => .ok (calls.map (fun c => ⟨c.fn, some c⟩))

/-- `CallGraphNode.isRoot()` over the computed backreference lists:
`for _ in self.parents: return False` / `return True`, i.e. no parents. -/
def CallGraphNode.isRootB (m : Backrefs) (node : CallGraphNode) : Bool :=
  (parentNodes m node).isEmpty

/-- `CallGraphNode.root`:
```python
ret=self
for parent in ret.parents:
    ret=parent
    break
return ret
```
The loop body runs at most once: the result is the first parent when one
exists, otherwise the node itself. -/
def CallGraphNode.root (reg : Registry) (node : CallGraphNode) :
    Except String CallGraphNode :=
  match node.parents reg with
  | .error e => .error e
  | .ok [] => .ok node
  | .ok (p :: _) => .ok p

/-- Concatenation of recursive `roots` results over a parent list
(`for parent in self.parents: yield from parent.roots`). -/
def collectRoots (f : CallGraphNode → Option (List CallGraphNode)) :
    List CallGraphNode → Option (List CallGraphNode)
  | [] => some []
  | p :: rest =>
    match f p with
    | none => none
    | some l1 =>
      match collectRoots f rest with
      | none => none
      | some l2 => some (l1 ++ l2)

/-- `CallGraphNode.roots` over the computed backreference lists:
```python
if self.isRoot():
    yield self
    return
for parent in self.parents:
    yield from parent.roots
```
The recursion is embedded with an explicit depth bound `fuel`; `none` means
the bound was exhausted before the traversal finished. -/
def CallGraphNode.roots (m : Backrefs) : Nat → CallGraphNode → Option (List CallGraphNode)
  | 0, _ => none
  | n + 1, node =>
    let ps := parentNodes m node
    if ps.isEmpty then some [node]
    else collectRoots (CallGraphNode.roots m n) ps

/-! ## DoxygenFileInfo.xml (the lazy loading property)

```python
if self._xml is None:
    try:
        s=self.xmlFilename.read_text('utf-8',errors='ignore')
        self._xml=ET.fromstring(s)
    except FileNotFoundError:
        print(f'ERR: "{self.xmlFilename}" not found')
        self._xml=ET.Element('file_not_found')
return self._xml
```
`read_text` is modelled by its outcome (`.error` = `FileNotFoundError`), and
`ET.fromstring` by a parse function whose `.error` is a raised `ParseError`.
Only `FileNotFoundError` is caught. -/

/-- One access to the `DoxygenFileInfo.xml` property: `cached` is `_xml`,
`readText` the outcome of `read_text`, `fromstring` the XML parser. -/
def DoxygenFileInfo.xmlGet (cached : Option XmlElem)
    (readText : Except String String)
    (fromstring : String → Except String XmlElem) : Except String XmlElem :=
  match cached with
  | some x => .ok x
  | none =>
    match readText with
    | .error _ => .ok (XmlElem.elem "file_not_found" [] [])
    | .ok s => fromstring s

/-! ## DoxygenInfo._reparseXmlIndex

```python
self._files={}; self._functions={}; self._references={}
for file in xmlIndex.findall('.//compound'):
    if file.attrib.get("kind","")!="file": continue
    shortFilename=file.attrib['refid']+'.xml'
    xmlFilename=self.doxygenOutputDirectory/'xml'/shortFilename
    fileInfo=DoxygenFileInfo(self,file.find('name').text,xmlFilename)
    for member in file.findall('member'):
        refid=member.attrib['refid']
        kind=member.attrib['kind']
        if kind=='function':
            if refid in self._references:
                fn=self._references[refid]
            else:
                name=member.find('name').text
                fn=DoxygenFunctionInfo(self,name,refid)
                self._functions[fn.name]=fn
                self._references[refid]=fn
            fileInfo.functions[fn.name]=fn
            fn.files[fileInfo.name]=fileInfo
```
Index XML access is modelled by records carrying exactly the fields the loop
reads: a `member` element's `refid`/`kind` attributes and `name` child text,
and a `compound` element's `kind`/`refid` attributes and `name` child text.
Object identity of the created `DoxygenFunctionInfo`s matters (the same
object is shared between `_functions`, `_references` and each
`fileInfo.functions`), so the objects live in an explicit store and all dicts
hold store indices. -/

/-- A `<member>` element of the doxygen index. -/
structure Member where
  refid : String
  kind : String
  name : String

/-- A `<compound>` element of the doxygen index. -/
structure Compound where
  kind : String
  refid : String
  name : String
  members : List Member

/-- A `DoxygenFunctionInfo` object as built by the index parse: constructor
arguments plus the `files` dict (file name → that file's xml filename). -/
structure FnObj where
  name : String
  refid : String
  files : List (String × String)

/-- A `DoxygenFileInfo` object as built by the index parse: index name, xml
filename, and the `functions` dict (function name → function store index). -/
structure FileObj where
  name : String
  xmlFilename : String
  functions : List (String × Nat)

/-- The mutable state of `_reparseXmlIndex`: the store of allocated
function objects, the store of file objects, and the `_functions` /
`_references` dicts holding store indices. -/
structure ParseState where
  store : List FnObj
  fileStore : List FileObj
  functions : List (String × Nat)
  references : List (String × Nat)

/-- Python dict lookup (`d.get(k)` / `k in d`) on an association list. -/
def dictLookup {α : Type} : List (String × α) → String → Option α
  | [], _ => none
  | (k, v) :: rest, key => if k = key then some v else dictLookup rest key

/-- Python dict assignment `d[k]=v`: overwrite in place if the key exists,
else append. -/
def dictInsert {α : Type} : List (String × α) → String → α → List (String × α)
  | [], k, v => [(k, v)]
  | (k', v') :: rest, k, v =>
    if k' = k then (k, v) :: rest else (k', v') :: dictInsert rest k v

/-- `fn.files[fileInfo.name]=fileInfo` on the object at store index `i`. -/
def storeLinkFile (store : List FnObj) (i : Nat) (fileName xmlFilename : String) :
    List FnObj :=
  match store.get? i with
  | none => store
  | some fn => store.set i { fn with files := dictInsert fn.files fileName xmlFilename }

/-- `fileInfo.functions[fn.name]=fn` on the file object at index `j`. -/
def fileStoreLinkFn (fileStore : List FileObj) (j : Nat) (fnName : String) (i : Nat) :
    List FileObj :=
  match fileStore.get? j with
  | none => fileStore
  | some fo => fileStore.set j { fo with functions := dictInsert fo.functions fnName i }

/-- The two linking assignments shared by both branches of the member loop:
`fileInfo.functions[fn.name]=fn` and `fn.files[fileInfo.name]=fileInfo`, for
the function object at store index `i`. -/
def linkMember (s : ParseState) (fileIdx : Nat) (fileName xmlFilename : String)
    (i : Nat) : ParseState :=
  let fnName := match s.store.get? i with | some fn => fn.name | none => ""
  let s2 := { s with fileStore := fileStoreLinkFn s.fileStore fileIdx fnName i }
  { s2 with store := storeLinkFile s2.store i fileName xmlFilename }

/-- The body of the `for member in file.findall('member')` loop.  `fileIdx`,
`fileName` and `xmlFilename` identify the `fileInfo` being populated.  When
the refid is already registered the existing object is linked; otherwise a
fresh object is allocated and registered first. -/
def processMember (s : ParseState) (fileIdx : Nat) (fileName xmlFilename : String)
    (m : Member) : ParseState :=
  if m.kind = "function" then
    match dictLookup s.references m.refid with
    | some i => linkMember s fileIdx fileName xmlFilename i
    | none =>
      let i := s.store.length
      linkMember
        { s with
            store := s.store ++ [({ name := m.name, refid := m.refid, files := [] } : FnObj)],
            functions := dictInsert s.functions m.name i,
            references := s.references ++ [(m.refid, i)] }
        fileIdx fileName xmlFilename i
  else s

/-- The `for member in file.findall('member')` loop. -/
def processMembers (fileIdx : Nat) (fileName xmlFilename : String) :
    ParseState → List Member → ParseState
  | s, [] => s
  | s, m :: rest =>
    processMembers fileIdx fileName xmlFilename
      (processMember s fileIdx fileName xmlFilename m) rest

/-- The body of the `for file in xmlIndex.findall('.//compound')` loop.
`dir` is `self.doxygenOutputDirectory`. -/
def processCompound (dir : String) (s : ParseState) (c : Compound) : ParseState :=
  if c.kind = "file" then
    let xmlFilename := dir ++ "/xml/" ++ c.refid ++ ".xml"
    let fileIdx := s.fileStore.length
    let s1 := { s with fileStore := s.fileStore ++ [⟨c.name, xmlFilename, []⟩] }
    processMembers fileIdx c.name xmlFilename s1 c.members
  else s

/-- The `for file in xmlIndex.findall('.//compound')` loop. -/
def processCompounds (dir : String) : ParseState → List Compound → ParseState
  | s, [] => s
  | s, c :: rest => processCompounds dir (processCompound dir s c) rest

/-- `DoxygenInfo._reparseXmlIndex()`: reset the three dicts, then process
every compound of the index. -/
def reparseXmlIndex (dir : String) (index : List Compound) : ParseState :=
  processCompounds dir ⟨[], [], [], []⟩ index

/-! ## doxyFile.py: DoxyfileSetting.value setter, DoxyFile.markDirty / save -/

/-- Python `str.lstrip()` (no argument): drop leading whitespace. -/
def String.lstrip (s : String) : String := ⟨s.data.dropWhile Char.isWhitespace⟩

/-- The parts of a `DoxyFile`'s state the setter path touches: the stripped
`_lines`, the `autosave` flag, the `_dirty` flag, and a count of `save()`
file rewrites performed. -/
structure DoxyFileState where
  lines : List String
  autosave : Bool
  dirty : Bool
  writes : Nat
deriving Repr

/-- `DoxyFile.save()`: one file rewrite, then `_dirty=False`. -/
def DoxyFileState.save (st : DoxyFileState) : DoxyFileState :=
  { st with writes := st.writes + 1, dirty := false }

/-- `DoxyFile.markDirty()`: save immediately under autosave, otherwise set
the dirty flag. -/
def DoxyFileState.markDirty (st : DoxyFileState) : DoxyFileState :=
  if st.autosave then st.save else { st with dirty := true }

/-- A value assigned to a setting, before the setter's coercion to text. -/
inductive DoxyValue where
  | boolVal (b : Bool)
  | strVal (s : String)
  | otherVal (s : String)

/-- The setter's coercion: bools become YES/NO, non-strings go through
`str()` (`otherVal` carries that rendering), strings pass through. -/
def DoxyValue.toSettingStr : DoxyValue → String
  | .boolVal true => "YES"
  | .boolVal false => "NO"
  | .strVal s => s
  | .otherVal s => s

/-- Character walk for `split('=',1)`: `acc` holds the reversed prefix seen
so far; at the first `=` the remainder becomes the second part. -/
def splitFirstEqAux : List Char → List Char → List String
  | [], acc => [⟨acc.reverse⟩]
  | c :: rest, acc =>
    if c = '=' then [⟨acc.reverse⟩, ⟨rest⟩] else splitFirstEqAux rest (c :: acc)

/-- Python `line.split('=',1)`: split at the first `=` only (one part when
the line holds no `=`, two parts otherwise). -/
def splitFirstEq (s : String) : List String := splitFirstEqAux s.data []

/-- `DoxyfileSetting.value` setter:
```python
self._value=value
prev=self.doxyfile._lines[self._lineNo].split('=',1)
if prev[1].lstrip()!=value:
    self.doxyfile._lines[self._lineNo]=f'{prev[0]}= {value}'
    self.doxyfile.markDirty()
```
Returns the new file state and the new `_value`.  `prev[1]` raises
`IndexError` when the line holds no `=` (never the case for a setting built
by `load`). -/
def settingSetValue (st : DoxyFileState) (lineNo : Nat) (v : DoxyValue) :
    Except String (DoxyFileState × String) :=
  let value := v.toSettingStr
  match st.lines.get? lineNo with
  | none => .error "IndexError: _lines"
  | some theLine =>
    match splitFirstEq theLine with
    | [p, a] =>
      if a.lstrip ≠ value then
        .ok (({ st with lines := st.lines.set lineNo (p ++ "= " ++ value) }).markDirty,
          value)
      else .ok (st, value)
    | _ => .error "IndexError: prev"

/-! ## gitignore.py: Gitignore -/

/-- A compiled gitignore rule: the result of `paths.globToRegex` (an external
library) applied to the rule line, identified here by that source line. -/
structure GitignoreRule where
  pattern : String
deriving DecidableEq, Repr

/-- `paths.globToRegex(rule, caseSensitive=True)`, modelled opaquely: the
claims under study never inspect the compiled pattern. -/
def globToRegex (rule : String) : GitignoreRule := ⟨rule⟩

/-- The state of a `Gitignore`: the raw rule lines `_dataLines`, the compiled
`_rules`, and the `hasChanged` flag. -/
structure Gitignore where
  dataLines : List String
  rules : List GitignoreRule
  hasChanged : Bool
deriving Repr

/-- `Gitignore.addRule(rule)`:
```python
for line in self._dataLines:
    if line==rule: return
r=globToRegex(rule,caseSensitive=True)
self._rules.append(r)
self._dataLines.append(rule)
self.hasChanged=True
``` -/
def Gitignore.addRule (g : Gitignore) (rule : String) : Gitignore :=
  if rule ∈ g.dataLines then g
  else { dataLines := g.dataLines ++ [rule],
         rules := g.rules ++ [globToRegex rule],
         hasChanged := true }

/-- One line of `Gitignore.load`'s parsing loop:
```python
line=line.lstrip()
if line and line[0]!='#':
    self.addRule(line)
``` -/
def Gitignore.loadLine (g : Gitignore) (line : String) : Gitignore :=
  let line := line.lstrip
  if line ≠ "" ∧ line.front ≠ '#' then g.addRule line else g

/-- The `for line in data:` loop of `Gitignore.load`. -/
def Gitignore.loadLines : Gitignore → List String → Gitignore
  | g, [] => g
  | g, l :: rest => Gitignore.loadLines (g.loadLine l) rest

/-- `Gitignore.load` on file content already split at newlines, with the
default `addToExisting=False`: `_rules` and `_dataLines` are reset first, so
`startedEmpty` is true and the final `self.hasChanged=not startedEmpty`
leaves the flag false. -/
def Gitignore.load (data : List String) : Gitignore :=
  { Gitignore.loadLines ⟨[], [], false⟩ data with hasChanged := false }

/-- The content `Gitignore.save` writes to the output file:
`'\n'.join(self._dataLines)`. -/
def Gitignore.saveText (g : Gitignore) : String :=
  String.intercalate "\n" g.dataLines

/-- The index scan of `Gitignore.removeRule`: the position of the first
`_dataLines` entry equal to the rule, if any. -/
def findRuleIdx : List String → String → Option Nat
  | [], _ => none
  | l :: ls, r => if l = r then some 0 else (findRuleIdx ls r).map (· + 1)

/-- `Gitignore.removeRule(rule)`:
```python
for n,line in enumerate(self._dataLines):
    if line==rule:
        del self._rules[n]
        del self._dataLines[n]
        self.hasChanged=True
        return
```
When no line matches, the loop falls through and nothing is touched. -/
def Gitignore.removeRule (g : Gitignore) (rule : String) : Gitignore :=
  match findRuleIdx g.dataLines rule with
  | none => g
  | some n =>
    { dataLines := g.dataLines.eraseIdx n,
      rules := g.rules.eraseIdx n,
      hasChanged := true }

/-! ## Concrete registries used by witnesses and counterexamples -/

/-- Detail element for `main` in foo.c: it references (calls) `helper`. -/
def fooDocMain : XmlElem :=
  .elem "memberdef" [("id", "main_r")] [
    .elem "location" [("file", "foo.c"), ("line", "1"), ("column", "1")] [],
    .elem "references" [("refid", "helper_r"), ("startline", "3")] []]

/-- Detail element for `helper` in foo.c: it calls nothing. -/
def fooDocHelper : XmlElem :=
  .elem "memberdef" [("id", "helper_r")] [
    .elem "location" [("file", "foo.c"), ("line", "5"), ("column", "1")] []]

/-- The parsed per-file document of foo.c. -/
def fooDoc : XmlElem := .elem "doxygen" [] [fooDocMain, fooDocHelper]

/-- The `DoxygenFileInfo` of foo.c. -/
def fooFile : FileData := ⟨"foo.c", fooDoc⟩

/-- The function `main`, recorded in foo.c. -/
def mainFn : FunctionData := ⟨"main", "main_r", [fooFile]⟩

/-- The function `helper`, recorded in foo.c. -/
def helperFn : FunctionData := ⟨"helper", "helper_r", [fooFile]⟩

/-- A registry with `main` (calls `helper`) and `helper` (calls nothing). -/
def exampleReg : Registry :=
  ⟨[mainFn, helperFn], [("main_r", mainFn), ("helper_r", helperFn)]⟩

/-- Detail element for `f1` in c.c: it calls `f2`. -/
def cDocF1 : XmlElem :=
  .elem "memberdef" [("id", "f1_r")] [
    .elem "location" [("file", "c.c"), ("line", "1"), ("column", "1")] [],
    .elem "references" [("refid", "f2_r"), ("startline", "2")] []]

/-- Detail element for `f2` in c.c: it calls `f3`. -/
def cDocF2 : XmlElem :=
  .elem "memberdef" [("id", "f2_r")] [
    .elem "location" [("file", "c.c"), ("line", "4"), ("column", "1")] [],
    .elem "references" [("refid", "f3_r"), ("startline", "5")] []]

/-- Detail element for `f3` in c.c: it calls nothing. -/
def cDocF3 : XmlElem :=
  .elem "memberdef" [("id", "f3_r")] [
    .elem "location" [("file", "c.c"), ("line", "8"), ("column", "1")] []]

/-- The parsed per-file document of c.c. -/
def cDoc : XmlElem := .elem "doxygen" [] [cDocF1, cDocF2, cDocF3]

/-- The `DoxygenFileInfo` of c.c. -/
def cFile : FileData := ⟨"c.c", cDoc⟩

/-- `f1`, the entry point of the three-function chain. -/
def f1Fn : FunctionData := ⟨"f1", "f1_r", [cFile]⟩

/-- `f2`, the middle of the chain. -/
def f2Fn : FunctionData := ⟨"f2", "f2_r", [cFile]⟩

/-- `f3`, the bottom of the chain. -/
def f3Fn : FunctionData := ⟨"f3", "f3_r", [cFile]⟩

/-- A registry with the call chain f1 → f2 → f3. -/
def chain3 : Registry :=
  ⟨[f1Fn, f2Fn, f3Fn], [("f1_r", f1Fn), ("f2_r", f2Fn), ("f3_r", f3Fn)]⟩

/-! ## Helper lemmas -/

/-- `findRuleIdx` finds nothing when the rule is not among the lines. -/
theorem findRuleIdx_eq_none (ls : List String) (r : String) (h : r ∉ ls) :
    findRuleIdx ls r = none := by
  induction ls with
  | nil => rfl
  | cons l rest ih =>
    simp only [List.mem_cons, not_or] at h
    unfold findRuleIdx
    rw [if_neg (fun hl : l = r => h.1 hl.symm), ih h.2]
    rfl

/-- Lines stored by `Gitignore.addRule` satisfy any predicate holding for the
existing lines and the added rule. -/
theorem addRule_dataLines_pred (P : String → Prop) (g : Gitignore) (rule : String)
    (hg : ∀ l ∈ g.dataLines, P l) (hr : P rule) :
    ∀ l ∈ (g.addRule rule).dataLines, P l := by
  unfold Gitignore.addRule
  split
  · exact hg
  · intro l hl
    simp only [List.mem_append, List.mem_singleton] at hl
    rcases hl with hl | hl
    · exact hg l hl
    · exact hl ▸ hr

/-- Every line stored by the parsing loop of `Gitignore.load` is nonempty and
does not start with `#` (after the left strip applied before storing). -/
theorem loadLines_dataLines_pred (data : List String) :
    ∀ g : Gitignore, (∀ l ∈ g.dataLines, l ≠ "" ∧ l.front ≠ '#') →
      ∀ l ∈ (Gitignore.loadLines g data).dataLines, l ≠ "" ∧ l.front ≠ '#' := by
  induction data with
  | nil => intro g hg; exact hg
  | cons line rest ih =>
    intro g hg
    refine ih (g.loadLine line) ?_
    simp only [Gitignore.loadLine]
    split
    · next hcond => exact addRule_dataLines_pred _ g _ hg hcond
    · exact hg

/-! ## Claim theorems -/

/-- C3.  The claim states that for a function recorded in at least one
non-header file, `bestFile` returns a non-header file (foo.c for a function
declared in foo.h and defined in foo.c).  The code cannot do this:
`DoxygenFileInfo` has no `extension` attribute, so as soon as `files` holds a
second entry the comparison `bestFile.extension=='.h'` raises
`AttributeError`.  Evaluated here at exactly the claim's scenario
(files iterated as foo.h then foo.c). -/
theorem bestFile_two_files_raises_attributeError :
    bestFile [⟨"foo.h", XmlElem.elem "doxygen" [] []⟩,
              ⟨"foo.c", XmlElem.elem "doxygen" [] []⟩]
      = .error "AttributeError: DoxygenFileInfo object has no attribute extension" := rfl

/-- C7 counterexample.  The claim states the `xml` property never raises when
the per-file XML is absent *or unparsable*.  For an unparsable file the read
succeeds and `ET.fromstring` raises `ParseError`, which the `except
FileNotFoundError` handler does not catch: the access raises. -/
theorem fileInfo_xml_parseError_raises :
    DoxygenFileInfo.xmlGet none (.ok "<not well-formed xml")
        (fun _ => .error "ParseError: syntax error")
      = .error "ParseError: syntax error" := rfl

/-- C7 amended.  For a FileInfo whose per-file XML is absent (the read raises
`FileNotFoundError`), accessing `xml` does not raise: the error is caught, a
diagnostic is printed, and the empty `file_not_found` placeholder element is
returned — whatever the parser would have done. -/
theorem fileInfo_xml_absent_returns_placeholder
    (msg : String) (fromstring : String → Except String XmlElem) :
    DoxygenFileInfo.xmlGet none (.error msg) fromstring
      = .ok (XmlElem.elem "file_not_found" [] []) := rfl

/-- C8.  For a loaded Doxyfile line `p= a` at `lineNo`: assigning a value
whose textual form equals the stored text (`a.lstrip()`) leaves the whole
file state unchanged — dirty flag untouched, no save; assigning a different
textual value rewrites the line and marks dirty: under autosave exactly one
file rewrite happens (and the dirty flag ends cleared by `save`), without
autosave the dirty flag is set and nothing is written. -/
theorem doxyfileSetting_setValue_spec (st : DoxyFileState) (lineNo : Nat)
    (line p a : String) (v : DoxyValue)
    (hline : st.lines.get? lineNo = some line)
    (hsplit : splitFirstEq line = [p, a]) :
    (a.lstrip = v.toSettingStr →
      settingSetValue st lineNo v = .ok (st, v.toSettingStr)) ∧
    (a.lstrip ≠ v.toSettingStr →
      (st.autosave = true →
        settingSetValue st lineNo v
          = .ok (⟨st.lines.set lineNo (p ++ "= " ++ v.toSettingStr),
                  st.autosave, false, st.writes + 1⟩, v.toSettingStr)) ∧
      (st.autosave = false →
        settingSetValue st lineNo v
          = .ok (⟨st.lines.set lineNo (p ++ "= " ++ v.toSettingStr),
                  st.autosave, true, st.writes⟩, v.toSettingStr))) := by
  have base : settingSetValue st lineNo v =
      (if a.lstrip ≠ v.toSettingStr then
        Except.ok
          (({ st with
              lines := st.lines.set lineNo (p ++ "= " ++ v.toSettingStr) } :
            DoxyFileState).markDirty, v.toSettingStr)
      else .ok (st, v.toSettingStr)) := by
    simp only [settingSetValue, hline, hsplit]
  constructor
  · intro heq
    rw [base, if_neg (not_not_intro heq)]
  · intro hne
    constructor
    · intro hauto
      rw [base, if_pos hne]
      simp [DoxyFileState.markDirty, DoxyFileState.save, hauto]
    · intro hauto
      rw [base, if_pos hne]
      simp [DoxyFileState.markDirty, hauto]

/-- C8 witness: on the loaded line `HAVE_DOT = YES`, assigning `True`
(textual form YES) is a no-op, and assigning `False` (textual form NO) under
autosave rewrites the line and performs exactly one save. -/
theorem doxyfileSetting_setValue_spec_witness :
    (settingSetValue ⟨["HAVE_DOT = YES"], true, false, 0⟩ 0 (.boolVal true)
        = .ok (⟨["HAVE_DOT = YES"], true, false, 0⟩, "YES")) ∧
    (settingSetValue ⟨["HAVE_DOT = YES"], true, false, 0⟩ 0 (.boolVal false)
        = .ok (⟨["HAVE_DOT = NO"], true, false, 1⟩, "NO")) := by
  constructor
  · exact (doxyfileSetting_setValue_spec ⟨["HAVE_DOT = YES"], true, false, 0⟩ 0
      "HAVE_DOT = YES" "HAVE_DOT " " YES" (.boolVal true) rfl rfl).1 rfl
  · exact ((doxyfileSetting_setValue_spec ⟨["HAVE_DOT = YES"], true, false, 0⟩ 0
      "HAVE_DOT = YES" "HAVE_DOT " " YES" (.boolVal false) rfl rfl).2
      (by decide)).1 rfl

/-- C9 counterexample.  The claim states comment lines are preserved as
opaque lines and written back by a save.  Loading a gitignore consisting of
the comment `# keep me` and the rule `foo` stores only `foo`: the comment is
skipped entirely, and the saved text omits it. -/
theorem gitignore_comment_not_preserved :
    ("# keep me" ∉ (Gitignore.load ["# keep me", "foo"]).dataLines) ∧
    (Gitignore.load ["# keep me", "foo"]).saveText = "foo" := by
  constructor
  · decide
  · rfl

/-- C9 amended.  Lines whose left-stripped form starts with `#` (and blank
lines) are treated as comments and never parsed as rules — but they are
discarded, not preserved: every stored line (exactly what `save` writes back)
is nonempty and does not start with `#`. -/
theorem gitignore_comments_skipped (data : List String) (l : String)
    (hl : l ∈ (Gitignore.load data).dataLines) : l ≠ "" ∧ l.front ≠ '#' := by
  have h0 : ∀ x ∈ (⟨[], [], false⟩ : Gitignore).dataLines, x ≠ "" ∧ x.front ≠ '#' := by
    intro x hx; cases hx
  have := loadLines_dataLines_pred data ⟨[], [], false⟩ h0 l
  apply this
  simpa [Gitignore.load] using hl

/-- C9 amended witness: the rule line `foo` is stored by a load and is indeed
a non-comment line. -/
theorem gitignore_comments_skipped_witness :
    ("foo" : String) ≠ "" ∧ ("foo" : String).front ≠ '#' :=
  gitignore_comments_skipped ["# keep me", "foo"] "foo" (by decide)

/-- C10.  Removing a rule string that is not among the stored rule lines
returns without raising and leaves the whole `Gitignore` state — rule lines,
compiled patterns and `hasChanged` flag — unchanged. -/
theorem gitignore_removeRule_absent_noop (g : Gitignore) (rule : String)
    (h : rule ∉ g.dataLines) : g.removeRule rule = g := by
  unfold Gitignore.removeRule
  rw [findRuleIdx_eq_none g.dataLines rule h]

/-- C10 witness: removing the absent rule `bar` from a gitignore holding only
`foo` changes nothing. -/
theorem gitignore_removeRule_absent_noop_witness :
    (("bar" : String) ∉ (⟨["foo"], [⟨"foo"⟩], false⟩ : Gitignore).dataLines) ∧
    (⟨["foo"], [⟨"foo"⟩], false⟩ : Gitignore).removeRule "bar"
      = ⟨["foo"], [⟨"foo"⟩], false⟩ :=
  ⟨by decide, gitignore_removeRule_absent_noop ⟨["foo"], [⟨"foo"⟩], false⟩ "bar" (by decide)⟩

/-- C2.  The claim states `root` returns a parent-chain root (a node with
`isRoot()` true).  On the chain f1 → f2 → f3, `root` of f3's node returns the
immediate first parent f2 — the `for` loop breaks after a single step — and
f2 is not a root (f1 calls it): the code contradicts the claim and its own
docstring ("Main top-level entrypoint"). -/
theorem callGraph_root_returns_nonRoot :
    ∃ p m, CallGraphNode.root chain3 ⟨f3Fn, none⟩ = .ok p ∧
      calcBackrefs chain3 = .ok m ∧
      p.fn.refid = "f2_r" ∧
      CallGraphNode.isRootB m p = false :=
  ⟨⟨f2Fn, some ⟨f2Fn, "c.c:5"⟩⟩,
   [("f2_r", [⟨f1Fn, "c.c:2"⟩]), ("f3_r", [⟨f2Fn, "c.c:5"⟩])],
   rfl, rfl, rfl, rfl⟩

/-- Invariant of the inner `references` loop of `thisCallsFunctions`: the
ignore set only grows, every yielded callee's refid is fresh relative to the
incoming ignore set and recorded in the outgoing one, and the yielded refids
are pairwise distinct. -/
theorem thisCallsRefs_inv (reg : Registry) (fnameE : Except String String) :
    ∀ (refs : List XmlElem) (ign out ign' : _),
      thisCallsRefs reg fnameE refs ign = .ok (out, ign') →
      (∀ r ∈ ign, r ∈ ign') ∧
      (∀ c ∈ out, c.fn.refid ∈ ign' ∧ c.fn.refid ∉ ign) ∧
      (out.map (fun c => c.fn.refid)).Nodup := by
  intro refs
  induction refs with
  | nil =>
    intro ign out ign' h
    rw [thisCallsRefs] at h
    injection h with h
    injection h with h1 h2
    subst h1; subst h2
    exact ⟨fun r hr => hr, fun c hc => absurd hc (List.not_mem_nil c), List.nodup_nil⟩
  | cons ref rest ih =>
    intro ign out ign' h
    rw [thisCallsRefs] at h
    cases hattr : ref.attr "refid" with
    | none => rw [hattr] at h; cases h
    | some rid =>
      rw [hattr] at h
      dsimp only at h
      cases hlk : reg.refsLookup rid with
      | none => rw [hlk] at h; exact ih ign out ign' h
      | some fn2 =>
        rw [hlk] at h
        dsimp only at h
        by_cases hmem : fn2.refid ∈ ign
        · rw [if_pos hmem] at h
          exact ih ign out ign' h
        · rw [if_neg hmem] at h
          cases hfn : fnameE with
          | error e => rw [hfn] at h; cases h
          | ok fname =>
            rw [hfn] at h
            dsimp only at h
            cases hrec : thisCallsRefs reg (Except.ok fname) rest (fn2.refid :: ign) with
            | error e => rw [hrec] at h; cases h
            | ok pr =>
              obtain ⟨out2, ign2⟩ := pr
              rw [hrec] at h
              simp only [Except.ok.injEq, Prod.mk.injEq] at h
              obtain ⟨hout, hign⟩ := h
              obtain ⟨mono, fresh, nodup⟩ :=
                ih (fn2.refid :: ign) out2 ign2 (by rw [hfn]; exact hrec)
              subst hign
              refine ⟨fun r hr => mono r (List.mem_cons_of_mem _ hr), ?_, ?_⟩
              · intro c hc
                rw [← hout] at hc
                rcases List.mem_cons.mp hc with hc | hc
                · subst hc
                  exact ⟨mono _ (List.mem_cons_self _ _), hmem⟩
                · exact ⟨(fresh c hc).1,
                    fun hin => (fresh c hc).2 (List.mem_cons_of_mem _ hin)⟩
              · rw [← hout]
                simp only [List.map_cons, List.nodup_cons]
                refine ⟨?_, nodup⟩
                intro hmem2
                obtain ⟨c, hc, hceq⟩ := List.mem_map.mp hmem2
                exact (fresh c hc).2 (hceq ▸ List.mem_cons_self _ _)

/-- Invariant of the outer element loop of `thisCallsFunctions`: same shape
as `thisCallsRefs_inv`. -/
theorem thisCallsElems_inv (reg : Registry) (fnameE : Except String String) :
    ∀ (elems : List XmlElem) (ign out ign' : _),
      thisCallsElems reg fnameE elems ign = .ok (out, ign') →
      (∀ r ∈ ign, r ∈ ign') ∧
      (∀ c ∈ out, c.fn.refid ∈ ign' ∧ c.fn.refid ∉ ign) ∧
      (out.map (fun c => c.fn.refid)).Nodup := by
  intro elems
  induction elems with
  | nil =>
    intro ign out ign' h
    rw [thisCallsElems] at h
    injection h with h
    injection h with h1 h2
    subst h1; subst h2
    exact ⟨fun r hr => hr, fun c hc => absurd hc (List.not_mem_nil c), List.nodup_nil⟩
  | cons e rest ih =>
    intro ign out ign' h
    rw [thisCallsElems] at h
    cases h1 : thisCallsRefs reg fnameE (e.childrenWithTag "references") ign with
    | error er => rw [h1] at h; cases h
    | ok pr1 =>
      obtain ⟨out1, ign1⟩ := pr1
      rw [h1] at h
      dsimp only at h
      cases h2 : thisCallsElems reg fnameE rest ign1 with
      | error er => rw [h2] at h; cases h
      | ok pr2 =>
        obtain ⟨out2, ign2⟩ := pr2
        rw [h2] at h
        simp only [Except.ok.injEq, Prod.mk.injEq] at h
        obtain ⟨hout, hign⟩ := h
        obtain ⟨mono1, fresh1, nodup1⟩ :=
          thisCallsRefs_inv reg fnameE (e.childrenWithTag "references") ign out1 ign1 h1
        obtain ⟨mono2, fresh2, nodup2⟩ := ih ign1 out2 ign2 h2
        subst hign
        refine ⟨fun r hr => mono2 r (mono1 r hr), ?_, ?_⟩
        · intro c hc
          rw [← hout] at hc
          rcases List.mem_append.mp hc with hc | hc
          · exact ⟨mono2 _ (fresh1 c hc).1, (fresh1 c hc).2⟩
          · exact ⟨(fresh2 c hc).1, fun hin => (fresh2 c hc).2 (mono1 _ hin)⟩
        · rw [← hout, List.map_append]
          rw [List.nodup_append]
          refine ⟨nodup1, nodup2, ?_⟩
          intro x hx1 hx2
          obtain ⟨c1, hc1, hceq1⟩ := List.mem_map.mp hx1
          obtain ⟨c2, hc2, hceq2⟩ := List.mem_map.mp hx2
          exact (fresh2 c2 hc2).2 (hceq2 ▸ hceq1 ▸ (fresh1 c1 hc1).1)

/-- C5.  A single traversal of `thisCallsFunctions` with no caller-supplied
ignore set yields each distinct callee (identified, as Python set membership
and `__eq__` do, by refid) at most once, and never yields the function
itself: the visited set is seeded with the function and each yielded callee
is added before being yielded. -/
theorem thisCallsFunctions_distinct_and_irreflexive (reg : Registry)
    (fn : FunctionData) (locs : List CallLocation)
    (h : thisCallsFunctions reg fn none = .ok locs) :
    (locs.map (fun c => c.fn.refid)).Nodup ∧
    ∀ c ∈ locs, c.fn.refid ≠ fn.refid := by
  unfold thisCallsFunctions at h
  cases hx : fnXml fn with
  | error e => rw [hx] at h; cases h
  | ok elems =>
    rw [hx] at h
    dsimp only at h
    cases he : thisCallsElems reg (filenameOf fn) elems [fn.refid] with
    | error e => rw [he] at h; cases h
    | ok pr =>
      obtain ⟨out, ign'⟩ := pr
      rw [he] at h
      injection h with h
      subst h
      obtain ⟨_, fresh, nodup⟩ :=
        thisCallsElems_inv reg (filenameOf fn) elems [fn.refid] out ign' he
      refine ⟨nodup, fun c hc hceq => ?_⟩
      exact (fresh c hc).2 (hceq ▸ List.mem_singleton_self _)

/-- C5 witness: traversing `main` in the example registry yields exactly the
one callee `helper`, with distinct refids none of which is `main`'s. -/
theorem thisCallsFunctions_distinct_and_irreflexive_witness :
    ((([⟨helperFn, "foo.c:3"⟩] : List CallLocation).map (fun c => c.fn.refid)).Nodup ∧
      ∀ c ∈ ([⟨helperFn, "foo.c:3"⟩] : List CallLocation), c.fn.refid ≠ mainFn.refid) :=
  thisCallsFunctions_distinct_and_irreflexive exampleReg mainFn
    [⟨helperFn, "foo.c:3"⟩] rfl

/-- Reading the backreference map after one append: the appended location
lands at the end of the owner's list; other lists are untouched. -/
theorem backrefsGet_addBackref (m : Backrefs) (r' : String) (c : CallLocation)
    (r : String) :
    backrefsGet (addBackref m r' c) r
      = if r' = r then backrefsGet m r ++ [c] else backrefsGet m r := by
  induction m with
  | nil =>
    simp only [addBackref, backrefsGet]
    split <;> simp [backrefsGet]
  | cons kl rest ih =>
    obtain ⟨k, l⟩ := kl
    simp only [addBackref]
    by_cases hk : k = r'
    · rw [if_pos hk]
      simp only [backrefsGet]
      by_cases hkr : k = r
      · rw [if_pos hkr, if_pos (hk ▸ hkr), if_pos hkr]
      · rw [if_neg hkr, if_neg (fun hr : r' = r => hkr (hk.trans hr)), if_neg hkr]
    · rw [if_neg hk]
      simp only [backrefsGet]
      by_cases hkr : k = r
      · rw [if_pos hkr, if_neg (fun hr : r' = r => hk (hkr.trans hr.symm)), if_pos hkr]
      · rw [if_neg hkr, ih, if_neg hkr]

/-- A recorded backreference survives any later append. -/
theorem mem_backrefsGet_addBackref {m : Backrefs} {r : String} {x : CallLocation}
    (h : x ∈ backrefsGet m r) (r' : String) (c : CallLocation) :
    x ∈ backrefsGet (addBackref m r' c) r := by
  rw [backrefsGet_addBackref]
  split
  · exact List.mem_append_left _ h
  · exact h

/-- A recorded backreference survives the whole inner append loop of
`calculateFunctionBackreferences`. -/
theorem mem_backrefsGet_appendCalls {m : Backrefs} {r : String} {x : CallLocation}
    (h : x ∈ backrefsGet m r) (fn : FunctionData) (calls : List CallLocation) :
    x ∈ backrefsGet (appendCalls fn calls m) r := by
  induction calls generalizing m with
  | nil => exact h
  | cons c rest ih =>
    exact ih (mem_backrefsGet_addBackref h c.fn.refid ⟨fn, c.location⟩)

/-- After the inner append loop runs for caller `fn`, every one of its calls
is recorded in the callee's backreference list. -/
theorem appendCalls_records (fn : FunctionData) (calls : List CallLocation)
    (m : Backrefs) (c : CallLocation) (hc : c ∈ calls) :
    (⟨fn, c.location⟩ : CallLocation) ∈ backrefsGet (appendCalls fn calls m) c.fn.refid := by
  induction calls generalizing m with
  | nil => cases hc
  | cons c0 rest ih =>
    rcases List.mem_cons.mp hc with hc | hc
    · subst hc
      simp only [appendCalls]
      apply mem_backrefsGet_appendCalls _ fn rest
      rw [backrefsGet_addBackref, if_pos rfl]
      exact List.mem_append_right _ (List.mem_singleton_self _)
    · simp only [appendCalls]
      exact ih _ hc

/-- A recorded backreference survives the rest of the outer loop of
`calculateFunctionBackreferences`. -/
theorem mem_backrefsGet_calcAux {reg : Registry} {fns : List FunctionData}
    {m m' : Backrefs} (h : calcBackrefsAux reg fns m = .ok m')
    {r : String} {x : CallLocation} (hx : x ∈ backrefsGet m r) :
    x ∈ backrefsGet m' r := by
  induction fns generalizing m with
  | nil =>
    rw [calcBackrefsAux] at h
    injection h with h
    exact h ▸ hx
  | cons fn rest ih =>
    rw [calcBackrefsAux] at h
    cases hcalls : thisCallsFunctions reg fn none with
    | error e => rw [hcalls] at h; cases h
    | ok calls =>
      rw [hcalls] at h
      exact ih h (mem_backrefsGet_appendCalls hx fn calls)

/-- Core of C1 over the outer loop: once the loop has processed caller `F`,
each of `F`'s forward calls is recorded in the callee's final backreference
list. -/
theorem calcAux_records {reg : Registry} {fns : List FunctionData}
    {m0 m : Backrefs} (h : calcBackrefsAux reg fns m0 = .ok m)
    {F : FunctionData} (hF : F ∈ fns) {locs : List CallLocation}
    (hcalls : thisCallsFunctions reg F none = .ok locs) :
    ∀ c ∈ locs, (⟨F, c.location⟩ : CallLocation) ∈ backrefsGet m c.fn.refid := by
  induction fns generalizing m0 with
  | nil => cases hF
  | cons fn rest ih =>
    rw [calcBackrefsAux] at h
    rcases List.mem_cons.mp hF with hFeq | hFmem
    · subst hFeq
      rw [hcalls] at h
      intro c hc
      exact mem_backrefsGet_calcAux h (appendCalls_records F locs m0 c hc)
    · cases hcalls2 : thisCallsFunctions reg fn none with
      | error e => rw [hcalls2] at h; cases h
      | ok calls =>
        rw [hcalls2] at h
        exact ih h hFmem

/-- C1.  After `calculateFunctionBackreferences`, every forward call edge
F → G yielded by `thisCallsFunctions` is mirrored: G's parent list holds an
entry whose function is F, and F's children view holds a node whose function
is G.  In particular, in the registry where `main` calls `helper` and
`helper` calls nothing, `helper`'s parents view yields exactly one node, and
it references `main`. -/
theorem calculateFunctionBackreferences_backlinks :
    (∀ (reg : Registry) (F : FunctionData) (locs : List CallLocation) (m : Backrefs),
      F ∈ reg.functions →
      thisCallsFunctions reg F none = .ok locs →
      calcBackrefs reg = .ok m →
      ∀ c ∈ locs,
        (∃ pc ∈ backrefsGet m c.fn.refid, pc.fn.refid = F.refid) ∧
        ∃ ns, CallGraphNode.children reg ⟨F, none⟩ = .ok ns ∧
          ∃ ch ∈ ns, ch.fn.refid = c.fn.refid) ∧
    (∃ ps, CallGraphNode.parents exampleReg ⟨helperFn, none⟩ = .ok ps ∧
      ps.map (fun p => p.fn.refid) = ["main_r"]) := by
  constructor
  · intro reg F locs m hF hcalls hcalc c hc
    constructor
    · exact ⟨⟨F, c.location⟩, calcAux_records hcalc hF hcalls c hc, rfl⟩
    · refine ⟨locs.map (fun c => ⟨c.fn, some c⟩), ?_, ?_⟩
      · unfold CallGraphNode.children
        rw [hcalls]
      · exact ⟨⟨c.fn, some c⟩, List.mem_map_of_mem _ hc, rfl⟩
  · exact ⟨[⟨mainFn, some ⟨mainFn, "foo.c:3"⟩⟩], rfl, rfl⟩

/-- C1 witness: in the example registry, `main`'s one call to `helper` is
mirrored in `helper`'s backreference list and in `main`'s children view. -/
theorem calculateFunctionBackreferences_backlinks_witness :
    (∃ pc ∈ backrefsGet [("helper_r", [⟨mainFn, "foo.c:3"⟩])]
        (⟨helperFn, "foo.c:3"⟩ : CallLocation).fn.refid,
      pc.fn.refid = mainFn.refid) ∧
    ∃ ns, CallGraphNode.children exampleReg ⟨mainFn, none⟩ = .ok ns ∧
      ∃ ch ∈ ns, ch.fn.refid = (⟨helperFn, "foo.c:3"⟩ : CallLocation).fn.refid :=
  calculateFunctionBackreferences_backlinks.1 exampleReg mainFn
    [⟨helperFn, "foo.c:3"⟩] [("helper_r", [⟨mainFn, "foo.c:3"⟩])]
    (by unfold exampleReg; exact List.mem_cons_self _ _) rfl rfl
    ⟨helperFn, "foo.c:3"⟩ (List.mem_singleton_self _)

/-- The computed backreference lists of the chain registry (what
`calcBackrefs chain3` returns). -/
def chainBackrefs : Backrefs :=
  [("f2_r", [⟨f1Fn, "c.c:2"⟩]), ("f3_r", [⟨f2Fn, "c.c:5"⟩])]

/-- A ranking function witnessing that the chain registry's ancestry graph
is acyclic: each parent ranks strictly below its child node. -/
def chainRank (s : String) : Nat :=
  if s = "f3_r" then 2 else if s = "f2_r" then 1 else 0

/-- If every parent's recursive `roots` call succeeds and yields only nodes
satisfying `P`, so does the concatenation over the parent list. -/
theorem collectRoots_ok {f : CallGraphNode → Option (List CallGraphNode)}
    {P : CallGraphNode → Prop} (ps : List CallGraphNode)
    (h : ∀ p ∈ ps, ∃ lp, f p = some lp ∧ ∀ x ∈ lp, P x) :
    ∃ l, collectRoots f ps = some l ∧ ∀ x ∈ l, P x := by
  induction ps with
  | nil => exact ⟨[], rfl, fun x hx => absurd hx (List.not_mem_nil x)⟩
  | cons p rest ih =>
    obtain ⟨lp, hlp, hlpP⟩ := h p (List.mem_cons_self _ _)
    obtain ⟨l2, hl2, hl2P⟩ := ih (fun q hq => h q (List.mem_cons_of_mem _ hq))
    refine ⟨lp ++ l2, ?_, ?_⟩
    · rw [collectRoots, hlp, hl2]
    · intro x hx
      rcases List.mem_append.mp hx with hx | hx
      · exact hlpP x hx
      · exact hl2P x hx

/-- With a ranking function for the parent relation, `roots` finishes within
any fuel exceeding the start node's rank, and yields only root nodes. -/
theorem roots_fuel_ok (m : Backrefs) (h : String → Nat)
    (hrank : ∀ x p, p ∈ parentNodes m x → h p.fn.refid < h x.fn.refid) :
    ∀ (n : Nat) (node : CallGraphNode), h node.fn.refid < n →
      ∃ l, CallGraphNode.roots m n node = some l ∧
        ∀ x ∈ l, CallGraphNode.isRootB m x = true := by
  intro n
  induction n with
  | zero => intro node hn; exact absurd hn (Nat.not_lt_zero _)
  | succ n ih =>
    intro node hn
    rw [CallGraphNode.roots]
    by_cases hps : (parentNodes m node).isEmpty = true
    · rw [if_pos hps]
      refine ⟨[node], rfl, ?_⟩
      intro x hx
      rw [List.mem_singleton] at hx
      subst hx
      exact hps
    · rw [if_neg hps]
      apply collectRoots_ok
      intro p hp
      exact ih p (Nat.lt_of_lt_of_le (hrank node p hp) (Nat.lt_succ_iff.mp hn))

/-- C4.  In an acyclic call graph (witnessed by a ranking function for the
parent relation computed by `calculateFunctionBackreferences`), the `roots`
traversal of any node terminates — fuel one past the node's rank is enough —
every node it yields satisfies `isRoot()`, and when the starting node is
itself a root the traversal yields exactly that node and stops. -/
theorem roots_terminates_yields_roots (reg : Registry) (m : Backrefs)
    (h : String → Nat) (node : CallGraphNode)
    (hcalc : calcBackrefs reg = .ok m)
    (hrank : ∀ x p, p ∈ parentNodes m x → h p.fn.refid < h x.fn.refid) :
    ∃ l, CallGraphNode.roots m (h node.fn.refid + 1) node = some l ∧
      (∀ x ∈ l, CallGraphNode.isRootB m x = true) ∧
      (CallGraphNode.isRootB m node = true → l = [node]) := by
  obtain ⟨l, hl, hP⟩ :=
    roots_fuel_ok m h hrank (h node.fn.refid + 1) node (Nat.lt_succ_self _)
  refine ⟨l, hl, hP, ?_⟩
  intro hroot
  unfold CallGraphNode.isRootB at hroot
  have hval : CallGraphNode.roots m (h node.fn.refid + 1) node = some [node] := by
    rw [CallGraphNode.roots]
    rw [if_pos hroot]
  rw [hval] at hl
  injection hl with hl
  exact hl.symm

/-- The parent relation of the chain registry strictly decreases
`chainRank`: each node's parents rank below it. -/
theorem chainRank_decreases (x p : CallGraphNode)
    (hp : p ∈ parentNodes chainBackrefs x) :
    chainRank p.fn.refid < chainRank x.fn.refid := by
  simp only [parentNodes, chainBackrefs, backrefsGet] at hp
  split_ifs at hp with h2 h3
  · simp only [List.map_cons, List.map_nil, List.mem_singleton] at hp
    subst hp
    rw [← h2]
    decide
  · simp only [List.map_cons, List.map_nil, List.mem_singleton] at hp
    subst hp
    rw [← h3]
    decide
  · simp only [List.map_nil] at hp
    exact absurd hp (List.not_mem_nil p)

/-- C4 witness: on the chain registry (acyclic, ranked by `chainRank`),
`roots` of f3's node terminates within rank-plus-one fuel and yields only
roots. -/
theorem roots_terminates_yields_roots_witness :
    ∃ l, CallGraphNode.roots chainBackrefs
        (chainRank (⟨f3Fn, none⟩ : CallGraphNode).fn.refid + 1) ⟨f3Fn, none⟩ = some l ∧
      (∀ x ∈ l, CallGraphNode.isRootB chainBackrefs x = true) ∧
      (CallGraphNode.isRootB chainBackrefs ⟨f3Fn, none⟩ = true → l = [⟨f3Fn, none⟩]) :=
  roots_terminates_yields_roots chain3 chainBackrefs chainRank ⟨f3Fn, none⟩ rfl
    chainRank_decreases

/-- Lookup after dict assignment: the assigned key now maps to the new
value, every other key is unchanged. -/
theorem dictLookup_dictInsert {α : Type} (d : List (String × α)) (k : String)
    (v : α) (k' : String) :
    dictLookup (dictInsert d k v) k'
      = if k = k' then some v else dictLookup d k' := by
  induction d with
  | nil => rfl
  | cons kv rest ih =>
    obtain ⟨k0, v0⟩ := kv
    simp only [dictInsert]
    by_cases h0 : k0 = k
    · rw [if_pos h0]
      simp only [dictLookup]
      by_cases hk : k = k'
      · rw [if_pos hk, if_pos hk]
      · rw [if_neg hk, if_neg hk, if_neg (fun h : k0 = k' => hk (h0.symm.trans h))]
    · rw [if_neg h0]
      simp only [dictLookup]
      by_cases h0' : k0 = k'
      · rw [if_pos h0', if_neg (fun h : k = k' => h0 (h0'.trans h.symm)), if_pos h0']
      · rw [if_neg h0', ih, if_neg h0']

/-- A successful dict lookup is unaffected by entries appended later. -/
theorem dictLookup_append_some {α : Type} {d : List (String × α)} {k : String}
    {x : α} (h : dictLookup d k = some x) (d2 : List (String × α)) :
    dictLookup (d ++ d2) k = some x := by
  induction d with
  | nil => cases h
  | cons kv rest ih =>
    obtain ⟨k0, v0⟩ := kv
    rw [List.cons_append]
    simp only [dictLookup] at h ⊢
    by_cases h0 : k0 = k
    · rw [if_pos h0] at h ⊢; exact h
    · rw [if_neg h0] at h ⊢; exact ih h

/-- After a failed dict lookup, looking up in the appended dict continues in
the appended part. -/
theorem dictLookup_append_none {α : Type} {d : List (String × α)} {k : String}
    (h : dictLookup d k = none) (d2 : List (String × α)) :
    dictLookup (d ++ d2) k = dictLookup d2 k := by
  induction d with
  | nil => rfl
  | cons kv rest ih =>
    obtain ⟨k0, v0⟩ := kv
    rw [List.cons_append]
    simp only [dictLookup] at h ⊢
    by_cases h0 : k0 = k
    · rw [if_pos h0] at h; cases h
    · rw [if_neg h0] at h ⊢; exact ih h

/-- A key whose lookup fails is not among the dict's keys. -/
theorem not_mem_keys_of_dictLookup_none {α : Type} {d : List (String × α)}
    {k : String} (h : dictLookup d k = none) : k ∉ d.map Prod.fst := by
  induction d with
  | nil => exact List.not_mem_nil k
  | cons kv rest ih =>
    obtain ⟨k0, v0⟩ := kv
    simp only [dictLookup] at h
    by_cases h0 : k0 = k
    · rw [if_pos h0] at h; cases h
    · rw [if_neg h0] at h
      simp only [List.map_cons, List.mem_cons, not_or]
      exact ⟨fun hk => h0 hk.symm, ih h⟩

/-- Dict assignment never deletes: a key present before is present after. -/
theorem isSome_dictLookup_dictInsert {α : Type} (d : List (String × α))
    (k : String) (v : α) (k' : String) (h : (dictLookup d k').isSome) :
    (dictLookup (dictInsert d k v) k').isSome := by
  rw [dictLookup_dictInsert]
  split
  · rfl
  · exact h

/-- A successful `get?` bounds the index. -/
theorem lt_of_get?_eq_some {α : Type} {l : List α} {n : Nat} {a : α}
    (h : l.get? n = some a) : n < l.length := by
  by_contra hn
  rw [List.get?_eq_none.mpr (Nat.le_of_not_lt hn)] at h
  cases h

/-- The invariant `_reparseXmlIndex` maintains: the `_references` dict has
pairwise-distinct keys, and every store index it holds is in range. -/
def ParseInv (s : ParseState) : Prop :=
  (s.references.map Prod.fst).Nodup ∧ ∀ p ∈ s.references, p.2 < s.store.length

/-- "refid is linked to fileName": the references dict resolves the refid to
a store object whose `files` dict has an entry under the file's name. -/
def fnLinked (s : ParseState) (refid fileName : String) : Prop :=
  ∃ i fnObj, dictLookup s.references refid = some i ∧
    s.store.get? i = some fnObj ∧ (dictLookup fnObj.files fileName).isSome

/-- `storeLinkFile` never changes the store's length. -/
theorem length_storeLinkFile (st : List FnObj) (i : Nat) (a b : String) :
    (storeLinkFile st i a b).length = st.length := by
  unfold storeLinkFile
  cases st.get? i
  · rfl
  · exact List.length_set st i _

/-- A store object's recorded file keys survive any `storeLinkFile`. -/
theorem get?_storeLinkFile_preserves {st : List FnObj} {i : Nat} {fn : FnObj}
    (hget : st.get? i = some fn) {k : String}
    (hk : (dictLookup fn.files k).isSome) (i' : Nat) (a b : String) :
    ∃ fn', (storeLinkFile st i' a b).get? i = some fn' ∧
      (dictLookup fn'.files k).isSome := by
  unfold storeLinkFile
  cases h' : st.get? i' with
  | none => exact ⟨fn, hget, hk⟩
  | some fn0 =>
    by_cases hii : i' = i
    · subst hii
      rw [h'] at hget
      injection hget with hget
      subst hget
      exact ⟨{ fn0 with files := dictInsert fn0.files a b },
        List.get?_set_eq_of_lt _ (lt_of_get?_eq_some h'),
        isSome_dictLookup_dictInsert _ _ _ _ hk⟩
    · exact ⟨fn, by rw [List.get?_set_ne _ _ hii]; exact hget, hk⟩

/-- `linkMember` keeps the references dict untouched. -/
theorem linkMember_references (s : ParseState) (j : Nat) (a b : String) (i : Nat) :
    (linkMember s j a b i).references = s.references := rfl

/-- `linkMember`'s effect on the store is exactly `storeLinkFile`. -/
theorem linkMember_store (s : ParseState) (j : Nat) (a b : String) (i : Nat) :
    (linkMember s j a b i).store = storeLinkFile s.store i a b := rfl

/-- `linkMember` preserves the parse invariant. -/
theorem linkMember_inv {s : ParseState} (hs : ParseInv s) (j : Nat)
    (a b : String) (i : Nat) : ParseInv (linkMember s j a b i) := by
  refine ⟨hs.1, ?_⟩
  intro p hp
  rw [linkMember_store, length_storeLinkFile]
  exact hs.2 p hp

/-- `linkMember` preserves every established link. -/
theorem linkMember_persists {s : ParseState} {r f : String}
    (hf : fnLinked s r f) (j : Nat) (a b : String) (i : Nat) :
    fnLinked (linkMember s j a b i) r f := by
  obtain ⟨i0, fn0, hlk, hget, hkey⟩ := hf
  obtain ⟨fn', hget', hkey'⟩ := get?_storeLinkFile_preserves hget hkey i a b
  exact ⟨i0, fn', by rw [linkMember_references]; exact hlk, hget', hkey'⟩

/-- `linkMember` establishes the link for the object it is pointed at. -/
theorem linkMember_links {s : ParseState} {i : Nat} {fn : FnObj} {r : String}
    (hlk : dictLookup s.references r = some i) (hget : s.store.get? i = some fn)
    (j : Nat) (fname xf : String) :
    fnLinked (linkMember s j fname xf i) r fname := by
  refine ⟨i, { fn with files := dictInsert fn.files fname xf}, ?_, ?_, ?_⟩
  · rw [linkMember_references]; exact hlk
  · rw [linkMember_store]
    unfold storeLinkFile
    rw [hget]
    exact List.get?_set_eq_of_lt _ (lt_of_get?_eq_some hget)
  · rw [dictLookup_dictInsert, if_pos rfl]
    rfl

/-- A successful dict lookup comes from some stored pair. -/
theorem mem_of_dictLookup_some {α : Type} {d : List (String × α)} {k : String}
    {v : α} (h : dictLookup d k = some v) : ∃ p ∈ d, p.2 = v := by
  induction d with
  | nil => cases h
  | cons kv rest ih =>
    obtain ⟨k0, v0⟩ := kv
    simp only [dictLookup] at h
    by_cases h0 : k0 = k
    · rw [if_pos h0] at h
      injection h with h
      exact ⟨(k0, v0), List.mem_cons_self _ _, h⟩
    · rw [if_neg h0] at h
      obtain ⟨p, hp, hpv⟩ := ih h
      exact ⟨p, List.mem_cons_of_mem _ hp, hpv⟩

/-- An in-range index always yields an element. -/
theorem exists_get?_eq_some_of_lt {α : Type} {l : List α} {i : Nat}
    (h : i < l.length) : ∃ a, l.get? i = some a := by
  cases hg : l.get? i with
  | none =>
    rw [List.get?_eq_none] at hg
    omega
  | some a => exact ⟨a, rfl⟩

/-- `processMember` preserves the parse invariant: an already-seen refid is
only re-linked; a fresh refid appends one key (absent so far, so key
uniqueness survives) and one store object in range. -/
theorem processMember_inv {s : ParseState} (hs : ParseInv s) (j : Nat)
    (fname xf : String) (mem : Member) :
    ParseInv (processMember s j fname xf mem) := by
  unfold processMember
  by_cases hkind : mem.kind = "function"
  · rw [if_pos hkind]
    cases hlk : dictLookup s.references mem.refid with
    | some i => exact linkMember_inv hs j fname xf i
    | none =>
      refine linkMember_inv ⟨?_, ?_⟩ j fname xf s.store.length
      · simp only [List.map_append, List.map_cons, List.map_nil]
        rw [List.nodup_append]
        refine ⟨hs.1, List.nodup_singleton _, ?_⟩
        intro a ha hamem
        rw [List.mem_singleton] at hamem
        subst hamem
        exact not_mem_keys_of_dictLookup_none hlk ha
      · intro p hp
        simp only [List.length_append, List.length_cons, List.length_nil]
        rcases List.mem_append.mp hp with hp | hp
        · exact Nat.lt_succ_of_lt (hs.2 p hp)
        · rw [List.mem_singleton] at hp
          subst hp
          exact Nat.lt_succ_self _
  · rw [if_neg hkind]
    exact hs

/-- `processMember` preserves every established refid-to-file link. -/
theorem processMember_persists {s : ParseState} {r f : String}
    (hf : fnLinked s r f) (j : Nat) (fname xf : String) (mem : Member) :
    fnLinked (processMember s j fname xf mem) r f := by
  unfold processMember
  by_cases hkind : mem.kind = "function"
  · rw [if_pos hkind]
    cases hlk : dictLookup s.references mem.refid with
    | some i => exact linkMember_persists hf j fname xf i
    | none =>
      apply linkMember_persists _ j fname xf _
      obtain ⟨i0, fn0, hlk0, hget0, hkey0⟩ := hf
      refine ⟨i0, fn0, dictLookup_append_some hlk0 _, ?_, hkey0⟩
      rw [List.get?_append (lt_of_get?_eq_some hget0)]
      exact hget0
  · rw [if_neg hkind]
    exact hf

/-- `processMember` on a function member links that member's refid to the
file currently being parsed — reusing the registered object when the refid
was already seen, allocating one otherwise. -/
theorem processMember_establishes {s : ParseState} (hs : ParseInv s)
    (j : Nat) (fname xf : String) (mem : Member)
    (hkind : mem.kind = "function") :
    fnLinked (processMember s j fname xf mem) mem.refid fname := by
  unfold processMember
  rw [if_pos hkind]
  cases hlk : dictLookup s.references mem.refid with
  | some i =>
    obtain ⟨p, hpmem, hpv⟩ := mem_of_dictLookup_some hlk
    obtain ⟨fn, hget⟩ := exists_get?_eq_some_of_lt (hpv ▸ hs.2 p hpmem)
    exact linkMember_links hlk hget j fname xf
  | none =>
    exact linkMember_links
      (by rw [dictLookup_append_none hlk]; simp [dictLookup])
      (List.get?_concat_length _ _) j fname xf

/-- The member loop: invariant preserved, links preserved, and every
function member of the processed list ends linked to the file. -/
theorem processMembers_props (j : Nat) (fname xf : String) :
    ∀ (ms : List Member) (s : ParseState), ParseInv s →
      ParseInv (processMembers j fname xf s ms) ∧
      (∀ r f, fnLinked s r f → fnLinked (processMembers j fname xf s ms) r f) ∧
      (∀ mem ∈ ms, mem.kind = "function" →
        fnLinked (processMembers j fname xf s ms) mem.refid fname) := by
  intro ms
  induction ms with
  | nil =>
    intro s hs
    exact ⟨hs, fun r f hf => hf, fun mem hm => absurd hm (List.not_mem_nil mem)⟩
  | cons m rest ih =>
    intro s hs
    rw [processMembers]
    obtain ⟨ihInv, ihPers, ihEst⟩ :=
      ih (processMember s j fname xf m) (processMember_inv hs j fname xf m)
    refine ⟨ihInv, ?_, ?_⟩
    · intro r f hf
      exact ihPers r f (processMember_persists hf j fname xf m)
    · intro mem hmem hmk
      rcases List.mem_cons.mp hmem with hmem | hmem
      · subst hmem
        exact ihPers _ _ (processMember_establishes hs j fname xf mem hmk)
      · exact ihEst mem hmem hmk

/-- The compound body: a non-file compound is skipped; a file compound keeps
the invariant and existing links, and links each of its function members to
its own name. -/
theorem processCompound_props (dir : String) (c : Compound) (s : ParseState)
    (hs : ParseInv s) :
    ParseInv (processCompound dir s c) ∧
    (∀ r f, fnLinked s r f → fnLinked (processCompound dir s c) r f) ∧
    (c.kind = "file" → ∀ mem ∈ c.members, mem.kind = "function" →
      fnLinked (processCompound dir s c) mem.refid c.name) := by
  unfold processCompound
  by_cases hk : c.kind = "file"
  · rw [if_pos hk]
    obtain ⟨hInv, hPers, hEst⟩ :=
      processMembers_props s.fileStore.length c.name
        (dir ++ "/xml/" ++ c.refid ++ ".xml") c.members
        { s with fileStore := s.fileStore ++
            [({ name := c.name, xmlFilename := dir ++ "/xml/" ++ c.refid ++ ".xml",
                functions := [] } : FileObj)] }
        ⟨hs.1, hs.2⟩
    exact ⟨hInv, fun r f hf => hPers r f hf, fun _ mem hm hmk => hEst mem hm hmk⟩
  · rw [if_neg hk]
    exact ⟨hs, fun r f hf => hf, fun hfile => absurd hfile hk⟩

/-- The compound loop, chaining `processCompound_props`. -/
theorem processCompounds_props (dir : String) :
    ∀ (cs : List Compound) (s : ParseState), ParseInv s →
      ParseInv (processCompounds dir s cs) ∧
      (∀ r f, fnLinked s r f → fnLinked (processCompounds dir s cs) r f) ∧
      (∀ c ∈ cs, c.kind = "file" → ∀ mem ∈ c.members, mem.kind = "function" →
        fnLinked (processCompounds dir s cs) mem.refid c.name) := by
  intro cs
  induction cs with
  | nil =>
    intro s hs
    exact ⟨hs, fun r f hf => hf, fun c hc => absurd hc (List.not_mem_nil c)⟩
  | cons c rest ih =>
    intro s hs
    rw [processCompounds]
    obtain ⟨cInv, cPers, cEst⟩ := processCompound_props dir c s hs
    obtain ⟨ihInv, ihPers, ihEst⟩ := ih (processCompound dir s c) cInv
    refine ⟨ihInv, ?_, ?_⟩
    · exact fun r f hf => ihPers r f (cPers r f hf)
    · intro c0 hc0 hck mem hmem hmk
      rcases List.mem_cons.mp hc0 with hc0 | hc0
      · subst hc0
        exact ihPers _ _ (cEst hck mem hmem hmk)
      · exact ihEst c0 hc0 hck mem hmem hmk

/-- C6.  After any `_reparseXmlIndex` run the reference-ID map holds at most
one entry per refid (its keys are pairwise distinct, so both occurrences of
a refid resolve through the one lookup to the same stored object), and every
function member of every file compound — in particular a header declaration
and a `.c` definition sharing one refid — has its compound's file name
linked into that single object's `files` dict. -/
theorem reparseXmlIndex_unique_refids_and_links (dir : String)
    (index : List Compound) :
    ((reparseXmlIndex dir index).references.map Prod.fst).Nodup ∧
    ∀ c ∈ index, c.kind = "file" → ∀ mem ∈ c.members, mem.kind = "function" →
      ∃ i fnObj,
        dictLookup (reparseXmlIndex dir index).references mem.refid = some i ∧
        (reparseXmlIndex dir index).store.get? i = some fnObj ∧
        (dictLookup fnObj.files c.name).isSome := by
  obtain ⟨hInv, _, hEst⟩ := processCompounds_props dir index ⟨[], [], [], []⟩
    ⟨List.nodup_nil, fun p hp => absurd hp (List.not_mem_nil p)⟩
  exact ⟨hInv.1, fun c hc hck mem hm hmk => hEst c hc hck mem hm hmk⟩

/-- A doxygen index with a header declaration and a `.c` definition of the
same function, sharing the refid `fn_r`. -/
def headerAndSourceIndex : List Compound :=
  [⟨"file", "foo_8h", "foo.h", [⟨"fn_r", "function", "myfunc"⟩]⟩,
   ⟨"file", "foo_8c", "foo.c", [⟨"fn_r", "function", "myfunc"⟩]⟩]

/-- C6 witness: parsing the header-plus-source index resolves `fn_r` to one
object linked to both `foo.h` and `foo.c`. -/
theorem reparseXmlIndex_unique_refids_and_links_witness :
    (∃ i fnObj,
      dictLookup (reparseXmlIndex "out" headerAndSourceIndex).references "fn_r" = some i ∧
      (reparseXmlIndex "out" headerAndSourceIndex).store.get? i = some fnObj ∧
      (dictLookup fnObj.files "foo.h").isSome) ∧
    (∃ i fnObj,
      dictLookup (reparseXmlIndex "out" headerAndSourceIndex).references "fn_r" = some i ∧
      (reparseXmlIndex "out" headerAndSourceIndex).store.get? i = some fnObj ∧
      (dictLookup fnObj.files "foo.c").isSome) := by
  constructor
  · exact (reparseXmlIndex_unique_refids_and_links "out" headerAndSourceIndex).2
      ⟨"file", "foo_8h", "foo.h", [⟨"fn_r", "function", "myfunc"⟩]⟩
      (by unfold headerAndSourceIndex; exact List.mem_cons_self _ _) rfl
      ⟨"fn_r", "function", "myfunc"⟩ (List.mem_cons_self _ _) rfl
  · exact (reparseXmlIndex_unique_refids_and_links "out" headerAndSourceIndex).2
      ⟨"file", "foo_8c", "foo.c", [⟨"fn_r", "function", "myfunc"⟩]⟩
      (by unfold headerAndSourceIndex
          exact List.mem_cons_of_mem _ (List.mem_cons_self _ _)) rfl
      ⟨"fn_r", "function", "myfunc"⟩ (List.mem_cons_self _ _) rfl
